import Mathlib

/-!
Verification of the Ouroboros agent-loop repository.

Shallow embedding of the functions in `ouroboros/context.py`,
`ouroboros/loop.py` and `ouroboros/llm.py` that the testable
properties of the specification talk about, followed by theorems settling each
property.

Conventions of the embedding:
* Python `int` is modelled by `Nat`/`Int` as appropriate, Python `float`
  arithmetic by `ℚ` (exact rationals; the floating-point representation
  error of literals such as `0.3` is not modelled).
* Python dicts used as pricing tables are modelled by association lists
  in insertion order (Python dicts iterate in insertion order).
* Functions of the repository that are only imported in the sources at
  hand (their defining module is absent) are modelled from the spec and
  marked as such in their doc comment.
-/

namespace Ouroboros

/-! ## Context builder: `ouroboros/context.py` -/

/-- Python startswith, `s.startswith(p)`: character-wise prefix test.  (Stated via
`List.isPrefixOf` on the character lists rather than the byte-level
`String.isPrefixOf`, the two being equivalent; the list form has the
lemma support used below.) -/
def pyStartsWith (s p : String) : Bool := p.data.isPrefixOf s.data

/-- The `limits` table of `get_dynamic_context_limit`
(`context.py` lines 15–22), in source order. -/
def contextLimits : List (String × Nat) :=
  [("groq/", 4000), ("google/", 4000), ("stepfun/", 8000),
   ("arcee-ai/", 8000), ("together/", 6000), ("qwen/", 6000)]

/-- The source function `get_dynamic_context_limit(model_id, task_type)`
(`context.py` lines 14–27):
the first prefix of `contextLimits` matching `model_id` decides the limit;
otherwise evolution tasks get 4000 and every other task 8000. -/
def get_dynamic_context_limit (model_id : String) (task_type : String) : Nat :=
  match contextLimits.find? (fun p => pyStartsWith model_id p.1) with
  | some p => p.2
  | none => if task_type = "evolution" then 4000 else 8000

/-- The greedy re-insertion loop of `apply_message_token_soft_cap`
(`context.py` lines 212–218), run on the reversed tail of the message
list: take messages while the running total stays within the cap, and
stop at the first message that would overflow it.  `est` models the
`estimate_tokens` helper (imported in `context.py` from
`ouroboros.utils`; its defining code is absent from the sources, so
it is kept abstract — every theorem below holds for an arbitrary
estimator).  Returns the kept messages (newest first, as the Python
loop visits them) and the final accumulated token count. -/
def capTake {α : Type} (est : List α → Nat) (cap : Nat) :
    Nat → List α → List α × Nat
  | acc, [] => ([], acc)
  | acc, m :: rest =>
      let t := est [m]
      if acc + t ≤ cap then
        let p := capTake est cap (acc + t) rest
        (m :: p.1, p.2)
      else
        ([], acc)

/-- The capping report `{requested, actual}` of
`apply_message_token_soft_cap`. -/
structure CapInfo where
  requested : Nat
  actual : Nat
  deriving Repr, DecidableEq

/-- The capping function `apply_message_token_soft_cap(messages,
soft_cap_tokens)`
(`context.py` lines 196–221).  If the estimated total is within the cap
the list is returned unchanged; otherwise the system message
(`messages[:1]`) is kept and the remaining messages are re-inserted in
reverse chronological order while they fit (`capTake`); each kept
message is inserted at position 1, which restores chronological order,
hence the final `.reverse`. -/
def apply_message_token_soft_cap {α : Type} (est : List α → Nat)
    (messages : List α) (soft_cap_tokens : Nat) : List α × CapInfo :=
  let total := est messages
  if total ≤ soft_cap_tokens then
    (messages, ⟨soft_cap_tokens, total⟩)
  else
    match messages with
    | [] => ([], ⟨soft_cap_tokens, est []⟩)
    | sys :: rest =>
        let p := capTake est soft_cap_tokens (est [sys]) rest.reverse
        (sys :: p.1.reverse, ⟨soft_cap_tokens, p.2⟩)

/-! ## Usage & cost accountant: `ouroboros/loop.py` -/

/-- A pricing entry `(input_price, cached_price, output_price)`, the tuple
values of `_MODEL_PRICING_STATIC` (`loop.py` lines 28–45). -/
structure Pricing where
  input : ℚ
  cached : ℚ
  output : ℚ
  deriving Repr, DecidableEq

/-- The static table `_MODEL_PRICING_STATIC` (`loop.py` lines 28–45), in
source order.
Float literals are carried over as exact rationals. -/
def MODEL_PRICING_STATIC : List (String × Pricing) :=
  [("anthropic/claude-opus-4.6", ⟨5, 1/2, 25⟩),
   ("anthropic/claude-opus-4", ⟨15, 3/2, 75⟩),
   ("anthropic/claude-sonnet-4", ⟨3, 3/10, 15⟩),
   ("anthropic/claude-sonnet-4.6", ⟨3, 3/10, 15⟩),
   ("anthropic/claude-sonnet-4.5", ⟨3, 3/10, 15⟩),
   ("openai/o3", ⟨2, 1/2, 8⟩),
   ("openai/o3-pro", ⟨20, 1, 80⟩),
   ("openai/o4-mini", ⟨11/10, 11/40, 22/5⟩),
   ("openai/gpt-4.1", ⟨2, 1/2, 8⟩),
   ("openai/gpt-5.2", ⟨7/4, 7/40, 14⟩),
   ("openai/gpt-5.2-codex", ⟨7/4, 7/40, 14⟩),
   ("google/gemini-2.5-pro-preview", ⟨5/4, 1/8, 10⟩),
   ("google/gemini-3-pro-preview", ⟨2, 1/5, 12⟩),
   ("x-ai/grok-3-mini", ⟨3/10, 3/100, 1/2⟩),
   ("qwen/qwen3.5-plus-02-15", ⟨2/5, 1/25, 12/5⟩)]

/-- Exact-key lookup: `model_pricing.get(model)` on a dict modelled as an
association list in insertion order. -/
def dictGet {β : Type} (table : List (String × β)) (key : String) : Option β :=
  (table.find? (fun kv => kv.1 = key)).map (fun kv => kv.2)

/-- The prefix-fallback loop of `_estimate_cost` (`loop.py` lines 86–94):
iterate over the table in insertion order keeping the match with the
longest key, a later key replacing the current best only when strictly
longer (`len(key) > best_length` with `best_length` starting at 0, so a
zero-length key can never match, and ties keep the first match).  The
`model and model.startswith(key)` guard makes the empty model id match
nothing. -/
def bestPrefixMatch (table : List (String × Pricing)) (model : String) :
    Option Pricing :=
  (table.foldl
    (fun best kv =>
      if model ≠ "" ∧ pyStartsWith model kv.1 ∧ best.1 < kv.1.length
      then (kv.1.length, some kv.2)
      else best)
    ((0 : Nat), (none : Option Pricing))).2

/-- The pricing resolution of `_estimate_cost` (`loop.py` lines 84–95):
exact dict lookup first, then the longest-prefix fallback. -/
def lookupPricing (table : List (String × Pricing)) (model : String) :
    Option Pricing :=
  match dictGet table model with
  | some p => some p
  | none => bestPrefixMatch table model

/-- Spec-side definition, written from the words of the spec for comparison
with `lookupPricing`: "selects the pricing entry whose key is the
longest prefix match of the model identifier (ties broken by first
match)" — the first entry of the table whose key is a prefix of the
model identifier of maximal length among all such entries. -/
def longestPrefixSpec (table : List (String × Pricing)) (model : String) :
    Option Pricing :=
  (table.find? (fun kv => pyStartsWith model kv.1
    ∧ ∀ u ∈ table, pyStartsWith model u.1 → u.1.length ≤ kv.1.length)).map
    (fun kv => kv.2)

/-- Proof-side predicate: `kv` is a prefix match of `model` whose key is
longer than the threshold `b` and of maximal length among all such
matches in `table`. -/
def bestP (model : String) (table : List (String × Pricing)) (b : Nat)
    (kv : String × Pricing) : Prop :=
  pyStartsWith model kv.1 = true ∧ b < kv.1.length
  ∧ ∀ u ∈ table, pyStartsWith model u.1 = true → b < u.1.length →
      u.1.length ≤ kv.1.length

instance (model : String) (table : List (String × Pricing)) (b : Nat) :
    DecidablePred (bestP model table b) := fun kv => by
  unfold bestP; infer_instance

/-- Python `round(x, 6)` on the cost (`loop.py` line 103).  Python rounds
floats
to six decimal places with round-half-to-even; the model uses the
Mathlib `round` (half away from zero on the scaled integer), which agrees with
it except exactly at ties of the seventh decimal and in particular
agrees in sign everywhere. -/
def round6 (q : ℚ) : ℚ := (round (q * 1000000) : ℤ) / 1000000

/-- The cost estimator `_estimate_cost(model, prompt_tokens,
completion_tokens, cached_tokens, cache_write_tokens)` (`loop.py` lines 80–103), parameterised by the
pricing table that `_get_pricing()` returned.  `cache_write_tokens` is
accepted and ignored exactly as in the source.  Token counts are Python
ints, modelled as `Int`; `max(0, prompt_tokens - cached_tokens)` clamps
the regular-input component. -/
def estimate_cost (table : List (String × Pricing)) (model : String)
    (prompt_tokens completion_tokens cached_tokens cache_write_tokens : Int) :
    ℚ :=
  match lookupPricing table model with
  | none => 0
  | some p =>
      let regular_input : Int := max 0 (prompt_tokens - cached_tokens)
      round6 ((regular_input * p.input
        + cached_tokens * p.cached
        + completion_tokens * p.output) / 1000000)

/-- Python `dict.update` on tables modelled as association lists: every
key of
`base` keeps its position, taking the value from `live` when present
there; keys of `live` absent from `base` are appended in the order of
`live`.  Matches the Python `dict.update` for dict-valued operands (whose key lists
are duplicate-free). -/
def dictUpdate {β : Type} (base live : List (String × β)) :
    List (String × β) :=
  base.map (fun kv =>
    match live.find? (fun l => l.1 = kv.1) with
    | some l => (kv.1, l.2)
    | none => kv)
  ++ live.filter (fun l => !(base.any (fun kv => kv.1 = l.1)))

/-- The module-level mutable state of `loop.py` that `_get_pricing` reads
and writes: `_pricing_fetched` and `_cached_pricing` (lines 47–48). -/
structure PricingState where
  fetched : Bool
  cached : Option (List (String × Pricing))
  deriving Repr, DecidableEq

/-- Outcome of the remote pricing fetch attempted inside `_get_pricing`:
either `fetch_openrouter_pricing()` returned a table, or the attempt
raised.  (The network call itself is outside the embedding; the source
stores per-model dicts from the live fetch where the static table holds
tuples — that shape difference is immaterial here and both are modelled
as `Pricing`.) -/
inductive FetchOutcome where
  | success (live : List (String × Pricing))
  | failure
  deriving Repr, DecidableEq

/-- The expression `_cached_pricing or _MODEL_PRICING_STATIC`: Python
`or` falls through
on `None` and on an empty dict. -/
def cachedOrStatic (c : Option (List (String × Pricing))) :
    List (String × Pricing) :=
  match c with
  | none => MODEL_PRICING_STATIC
  | some t => if t.isEmpty then MODEL_PRICING_STATIC else t

/-- The pricing loader `_get_pricing()` (`loop.py` lines 50–78) as a
state transformer over
`PricingState`, the fetch outcome supplied as a parameter.  If the fetch
already happened, return the cache.  Otherwise mark fetched, reset the
cache to a copy of the static table, merge a successful live fetch over
it when it carries more than five entries, and on a fetch failure clear
the fetched flag again before returning.  (The two `if _pricing_fetched`
checks around the lock coincide in this single-threaded model.) -/
def get_pricing (st : PricingState) (fetch : FetchOutcome) :
    PricingState × List (String × Pricing) :=
  if st.fetched then
    (st, cachedOrStatic st.cached)
  else
    match fetch with
    | FetchOutcome.success live =>
        if 5 < live.length then
          let merged := dictUpdate MODEL_PRICING_STATIC live
          (⟨true, some merged⟩, merged)
        else
          (⟨true, some MODEL_PRICING_STATIC⟩, MODEL_PRICING_STATIC)
    | FetchOutcome.failure =>
        (⟨false, some MODEL_PRICING_STATIC⟩, MODEL_PRICING_STATIC)

/-! ## Provider fallback chain: `ouroboros/llm.py` -/

/-- What `LLMInterface._handle_fallback` (`llm.py` lines 173–179) does
with the chain: retry with a specific model, re-raise the original
error, or let the `ValueError` of `list.index` escape when the current
model is not in the chain. -/
inductive FallbackOutcome where
  | retryWith (model : String)
  | raiseOriginal
  | raiseValueError
  deriving Repr, DecidableEq

/-- The method `LLMInterface._handle_fallback(ctx, error)` (`llm.py`
lines 173–179):
`ctx.provider_chain.index(ctx.current_provider)` finds the first
occurrence of the current model (raising `ValueError` when absent, which
the method does not catch); when `current_index < len(chain) - 1` the
next entry is tried, otherwise the original error is re-raised.
`i < len - 1` on Python ints is `i + 1 < len`. -/
def handle_fallback (provider_chain : List String) (current : String) :
    FallbackOutcome :=
  match provider_chain.findIdx? (fun m => m = current) with
  | none => FallbackOutcome.raiseValueError
  | some i =>
      if h : i + 1 < provider_chain.length then
        FallbackOutcome.retryWith (provider_chain.get ⟨i + 1, h⟩)
      else
        FallbackOutcome.raiseOriginal

/-! ## Tool dispatch engine: `ouroboros/loop.py` -/

/-- The allow-set `READ_ONLY_PARALLEL_TOOLS` (`loop.py` lines 105–109). -/
def READ_ONLY_PARALLEL_TOOLS : List String :=
  ["repo_read", "repo_list", "drive_read", "drive_list",
   "web_search", "codebase_digest", "chat_history"]

/-- A tool call as `_execute_single_tool` reads it: `tc["id"]` and
`tc["function"]["name"]` (the raw argument string is replaced by its
parse outcome, see `ParsedArgs`). -/
structure ToolCall where
  id : String
  name : String
  deriving Repr, DecidableEq

/-- Outcome of `json.loads(tc["function"]["arguments"] or "{}")`
(`loop.py` line 131): the parse raised (`malformed`), produced a JSON
object (modelled as a flat association list — nesting is irrelevant
here), or produced a non-object JSON value.  `json.loads` is standard
library code outside the repository, so the outcome is taken as input. -/
inductive ParsedArgs where
  | malformed (emsg : String)
  | obj (args : List (String × String))
  | nonObject
  deriving Repr, DecidableEq

/-- Outcome of one `tools.execute(fn_name, args)` call: a string result,
or a raised exception with its type name and message. -/
inductive ExecOutcome where
  | ok (result : String)
  | raises (ename emsg : String)
  deriving Repr, DecidableEq

/-- The result dict built by `_execute_single_tool` /
`_make_timeout_result` (the fields the claims are about; the log-only
fields are omitted). -/
structure ToolResult where
  tool_call_id : String
  fn_name : String
  result : String
  is_error : Bool
  deriving Repr, DecidableEq

/-- Modelled from the spec: `ToolRegistry.execute` lives in
`ouroboros/tools/registry.py`, which is absent from the sources (only
importers of it are present).  Per the tool interface of the spec a
handler
"accepts a context object … and a parsed argument object; returns a
string result or raises", so invoking the registry with a non-object
argument value raises a type error, and invoking it with an object
defers to the registered handler (kept abstract). -/
def registry_execute (handler : List (String × String) → ExecOutcome) :
    ParsedArgs → ExecOutcome
  | ParsedArgs.obj args => handler args
  | _ => ExecOutcome.raises "TypeError" "arguments must be a JSON object"

/-- `_execute_single_tool(tools, tc, drive_logs, task_id)` (`loop.py`
lines 122–172), with the JSON parse outcome and the registry execution
supplied as parameters and the append-only log writes dropped.  A parse
failure returns the `TOOL_ARG_ERROR` warning marked as an error; an
exception from `tools.execute` is caught and returned as the
`TOOL_ERROR` warning; otherwise `is_error` is
`(not tool_ok) or str(result).startswith("⚠️")`.  The function models a
total Python function: no exception escapes it. -/
def execute_single_tool (execute : ParsedArgs → ExecOutcome)
    (tc : ToolCall) (parsed : ParsedArgs) : ToolResult :=
  match parsed with
  | ParsedArgs.malformed emsg =>
      { tool_call_id := tc.id, fn_name := tc.name,
        result := "⚠️ TOOL_ARG_ERROR: Could not parse arguments for \x27"
          ++ tc.name ++ "\x27: " ++ emsg,
        is_error := true }
  | _ =>
      match execute parsed with
      | ExecOutcome.raises ename emsg =>
          { tool_call_id := tc.id, fn_name := tc.name,
            result := "⚠️ TOOL_ERROR (" ++ tc.name ++ "): "
              ++ ename ++ ": " ++ emsg,
            is_error := true }
      | ExecOutcome.ok r =>
          { tool_call_id := tc.id, fn_name := tc.name, result := r,
            is_error := pyStartsWith r "⚠️" }

/-- The parallel branch of `_handle_tool_calls` (`loop.py` lines
305–324): `results = [None] * len(tool_calls)`, then for each future in
completion order, `results[future_to_index[future]] = future.result()`.
`exec1` maps a call to its result (covering `_execute_with_timeout`);
`completionOrder` is the order in which `as_completed` yields the
futures, each named by its index. -/
def collectByCompletion (exec1 : ToolCall → ToolResult)
    (tool_calls : List ToolCall) (completionOrder : List Nat) :
    List (Option ToolResult) :=
  completionOrder.foldl
    (fun results idx =>
      match tool_calls[idx]? with
      | some tc => results.set idx (some (exec1 tc))
      | none => results)
    (List.replicate tool_calls.length none)

/-- The dispatcher `_handle_tool_calls` (`loop.py` lines 281–325), up to
the point where
`results` is complete: the parallel-eligibility test (`len > 1` and all
names in the read-only set), the sequential list comprehension, and the
parallel completion-order collection.  The results of the sequential
branch are wrapped in `some` to share the slot type of the parallel
branch. -/
def handle_tool_calls (exec1 : ToolCall → ToolResult)
    (tool_calls : List ToolCall) (completionOrder : List Nat) :
    List (Option ToolResult) :=
  let can_parallel := 1 < tool_calls.length
    ∧ ∀ tc ∈ tool_calls, tc.name ∈ READ_ONLY_PARALLEL_TOOLS
  if can_parallel then
    collectByCompletion exec1 tool_calls completionOrder
  else
    tool_calls.map (fun tc => some (exec1 tc))

/-! ## Budget check: `ouroboros/loop.py` -/

/-- A conversation message as `_check_budget_limits` appends them:
a role and a plain-text content. -/
structure ConvMsg where
  role : String
  content : String
  deriving Repr, DecidableEq

/-- The assistant message returned by the last `_call_llm_with_retry` in
`_check_budget_limits`: `final_msg.get("content")` may be absent. -/
structure FinalMsg where
  content : Option String
  deriving Repr, DecidableEq

/-- Outcome of that last model call: it raised, returned a falsy
`final_msg`, or returned a message. -/
inductive FinalCallOutcome where
  | raised
  | returnedNone
  | returned (msg : FinalMsg)
  deriving Repr, DecidableEq

/-- The expression `final_msg.get("content") or finish_reason`: Python
`or` falls
through on `None` and on the empty string. -/
def contentOr (c : Option String) (fallback : String) : String :=
  match c with
  | none => fallback
  | some s => if s = "" then fallback else s

/-- The budget check `_check_budget_limits(budget_remaining_usd,
accumulated_usage, ...)`
(`loop.py` lines 338–376), with the `%.3f`/`%.2f` float formatting of
the f-strings abstracted as `fmt3`/`fmt2` and the outcome of the last
model call supplied as a parameter.  Returns the (possibly extended)
message list and `some finalText` when the round loop must terminate,
`none` when control returns for another round.  `budget_pct` is
`task_cost / budget_remaining_usd` when the remaining budget is
positive, else `1.0`. -/
def check_budget_limits (fmt3 fmt2 : ℚ → String)
    (budget_remaining_usd : Option ℚ) (task_cost : ℚ) (round_idx : Nat)
    (messages : List ConvMsg) (finalCall : FinalCallOutcome) :
    List ConvMsg × Option String :=
  match budget_remaining_usd with
  | none => (messages, none)
  | some b =>
      let budget_pct : ℚ := if 0 < b then task_cost / b else 1
      if 1/2 < budget_pct then
        let finish_reason := "Task spent $" ++ fmt3 task_cost
          ++ " (>50% of remaining $" ++ fmt2 b ++ "). Budget exhausted."
        let msgs := messages ++ [⟨"system",
          "[BUDGET LIMIT] " ++ finish_reason
            ++ " Give your final response now."⟩]
        match finalCall with
        | FinalCallOutcome.raised => (msgs, some finish_reason)
        | FinalCallOutcome.returnedNone => (msgs, some finish_reason)
        | FinalCallOutcome.returned m =>
            (msgs, some (contentOr m.content finish_reason))
      else if 3/10 < budget_pct ∧ round_idx % 10 = 0 then
        (messages ++ [⟨"system",
          "[INFO] Task spent $" ++ fmt3 task_cost ++ " of $" ++ fmt2 b
            ++ ". Wrap up if possible."⟩], none)
      else
        (messages, none)

/-! ## Theorems: context capping (C1, C2) -/

/-- The greedy loop never ends above the cap unless it kept nothing and
returned its starting total unchanged. -/
theorem capTake_le_or_id {α : Type} (est : List α → Nat) (cap : Nat) :
    ∀ (l : List α) (acc : Nat),
      (capTake est cap acc l).2 ≤ cap
      ∨ ((capTake est cap acc l).1 = [] ∧ (capTake est cap acc l).2 = acc) := by
  intro l
  induction l with
  | nil => intro acc; exact Or.inr ⟨rfl, rfl⟩
  | cons m rest ih =>
      intro acc
      by_cases h : acc + est [m] ≤ cap
      · rcases ih (acc + est [m]) with h2 | h2
        · left; simpa [capTake, h] using h2
        · left; simp only [capTake, h, if_pos]
          rw [h2.2]; exact h
      · right; simp [capTake, h]

/-- The greedy loop keeps an initial segment of the list it walks. -/
theorem capTake_take {α : Type} (est : List α → Nat) (cap : Nat) :
    ∀ (l : List α) (acc : Nat), ∃ n, (capTake est cap acc l).1 = l.take n := by
  intro l
  induction l with
  | nil => intro acc; exact ⟨0, rfl⟩
  | cons m rest ih =>
      intro acc
      by_cases h : acc + est [m] ≤ cap
      · obtain ⟨n, hn⟩ := ih (acc + est [m])
        exact ⟨n + 1, by simp [capTake, h, hn]⟩
      · exact ⟨0, by simp [capTake, h]⟩

/-- C1.  For every message list (written `sys :: rest` with its leading
system message) and every cap, `apply_message_token_soft_cap` keeps the
original first message as the first element of its output, and the
reported achieved token total does not exceed the requested cap unless
the system message alone already exceeds it — for an arbitrary token
estimator `est`. -/
theorem capping_invariant {α : Type} (est : List α → Nat) (sys : α)
    (rest : List α) (cap : Nat) :
    (apply_message_token_soft_cap est (sys :: rest) cap).1.head? = some sys
    ∧ ((apply_message_token_soft_cap est (sys :: rest) cap).2.actual ≤ cap
       ∨ cap < est [sys]) := by
  simp only [apply_message_token_soft_cap]
  by_cases h : est (sys :: rest) ≤ cap
  · rw [if_pos h]
    exact ⟨rfl, Or.inl h⟩
  · rw [if_neg h]
    refine ⟨rfl, ?_⟩
    rcases capTake_le_or_id est cap rest.reverse (est [sys]) with h2 | h2
    · exact Or.inl h2
    · rcases le_or_lt (est [sys]) cap with h3 | h3
      · exact Or.inl (by rw [show (capTake est cap (est [sys]) rest.reverse).2
          = est [sys] from h2.2]; exact h3)
      · exact Or.inr h3

/-- C2.  Whatever the estimator, the cap and the input, the capped output
is the system message followed by a contiguous suffix of the remaining
messages in their original relative order — so the dropped messages are
always a prefix of the chronological non-system history. -/
theorem recency_bias {α : Type} (est : List α → Nat) (sys : α)
    (rest : List α) (cap : Nat) :
    ∃ n, (apply_message_token_soft_cap est (sys :: rest) cap).1
      = sys :: rest.drop n := by
  simp only [apply_message_token_soft_cap]
  by_cases h : est (sys :: rest) ≤ cap
  · exact ⟨0, by simp [h]⟩
  · rw [if_neg h]
    obtain ⟨n, hn⟩ := capTake_take est cap rest.reverse (est [sys])
    refine ⟨rest.length - n, ?_⟩
    simp [hn, List.take_reverse]

/-! ## Theorems: dynamic context limit (C3) -/

/-- C3, counterexample to the claim as stated: for the model identifier
`"stepfun/step-3.5-flash"` the provider-specific cap is 8000, and an
evolution task receives that full 8000 — strictly more than both the
evolution default of 4000 and the claimed minimum of provider cap and
evolution cap. -/
theorem context_limit_evolution_counterexample :
    get_dynamic_context_limit "stepfun/step-3.5-flash" "evolution" = 8000
    ∧ ¬ get_dynamic_context_limit "stepfun/step-3.5-flash" "evolution"
        ≤ 4000 := by
  constructor
  · rfl
  · decide

/-- C3, amended.  For every model identifier the evolution cap never
exceeds the cap of a `"user"` task; but the task type is consulted only
when no provider prefix matches, in which case an evolution task gets
exactly the strict evolution default of 4000 (a prefix-matched provider
cap is returned for every task type, and can exceed 4000). -/
theorem context_limit_evolution_le (m : String) :
    get_dynamic_context_limit m "evolution" ≤ get_dynamic_context_limit m "user"
    ∧ (contextLimits.find? (fun p => pyStartsWith m p.1) = none →
        get_dynamic_context_limit m "evolution" = 4000) := by
  unfold get_dynamic_context_limit
  cases h : contextLimits.find? (fun p => pyStartsWith m p.1) with
  | none => simp
  | some p => simp

/-- Witness for `context_limit_evolution_le`: the model identifier `"m"`
matches no provider prefix, so its evolution cap is the strict 4000 and
its user cap is 8000. -/
theorem context_limit_evolution_le_witness :
    get_dynamic_context_limit "m" "evolution"
        ≤ get_dynamic_context_limit "m" "user"
    ∧ get_dynamic_context_limit "m" "evolution" = 4000 :=
  ⟨(context_limit_evolution_le "m").1,
   (context_limit_evolution_le "m").2 (by decide)⟩

/-! ## Theorems: pricing lookup (C4) — helper lemmas -/

theorem string_length_data (s : String) : s.length = s.data.length := by
  cases s; rfl

theorem pyStartsWith_length {s p : String}
    (h : pyStartsWith s p = true) : p.length ≤ s.length := by
  have h2 : p.data <+: s.data := List.isPrefixOf_iff_prefix.mp h
  rw [string_length_data, string_length_data]
  exact h2.length_le

theorem pyStartsWith_self (s : String) : pyStartsWith s s = true :=
  List.isPrefixOf_iff_prefix.mpr (List.prefix_refl _)

theorem pyStartsWith_of_eq {s p : String} (h : p = s) :
    pyStartsWith s p = true := h ▸ pyStartsWith_self s

theorem pyStartsWith_eq {s p : String} (h : pyStartsWith s p = true)
    (hlen : s.length ≤ p.length) : p = s := by
  have h2 : p.data <+: s.data := List.isPrefixOf_iff_prefix.mp h
  have h3 : p.data = s.data := by
    refine h2.eq_of_length_le ?_
    rw [← string_length_data, ← string_length_data]
    exact hlen
  cases p; cases s
  exact congrArg String.mk h3

/-- Two predicates that agree on every element of a list are searched
identically by `find?`. -/
theorem find?_congr_on {α : Type} {f g : α → Bool} (xs : List α)
    (hfg : ∀ y ∈ xs, f y = g y) : xs.find? f = xs.find? g := by
  induction xs with
  | nil => rfl
  | cons z zs ih =>
      have hz : f z = g z := hfg z (by simp)
      cases hzv : f z with
      | true =>
          rw [List.find?_cons_of_pos _ hzv,
            List.find?_cons_of_pos _ (hz ▸ hzv)]
      | false =>
          rw [List.find?_cons_of_neg _ (by simp [hzv]),
            List.find?_cons_of_neg _ (by simp [← hz, hzv])]
          exact ih (fun y hy => hfg y (by simp [hy]))

/-- A list with an element satisfying `P` has a `P`-element on which a
`Nat`-valued measure is maximal among the `P`-elements. -/
theorem exists_max_of_mem {α : Type} (f : α → Nat) (P : α → Prop) :
    ∀ (l : List α), (∃ x ∈ l, P x) →
      ∃ x ∈ l, P x ∧ ∀ y ∈ l, P y → f y ≤ f x := by
  intro l
  induction l with
  | nil => rintro ⟨x, hx, -⟩; cases hx
  | cons a t ih =>
      rintro ⟨x, hx, hPx⟩
      by_cases ht : ∃ y ∈ t, P y
      · obtain ⟨m, hm, hPm, hmax⟩ := ih ht
        by_cases ha : P a ∧ f m ≤ f a
        · refine ⟨a, by simp, ha.1, ?_⟩
          rintro y hy hPy
          rcases List.mem_cons.mp hy with rfl | hy
          · exact le_refl _
          · exact le_trans (hmax y hy hPy) ha.2
        · refine ⟨m, by simp [hm], hPm, ?_⟩
          rintro y hy hPy
          rcases List.mem_cons.mp hy with rfl | hy
          · have : ¬ f m ≤ f y := fun hle => ha ⟨hPy, hle⟩
            omega
          · exact hmax y hy hPy
      · rcases List.mem_cons.mp hx with rfl | hx2
        · refine ⟨x, by simp, hPx, ?_⟩
          rintro y hy hPy
          rcases List.mem_cons.mp hy with rfl | hy
          · exact le_refl _
          · exact absurd ⟨y, hy, hPy⟩ ht
        · exact absurd ⟨x, hx2, hPx⟩ ht

/-- Characterization of the strict-improvement fold of `bestPrefixMatch`,
generalised over the starting threshold and the starting best value:
it returns the value of the first maximal prefix match above the
threshold, and the starting value when there is none. -/
theorem foldBest_char (model : String) (hm : model ≠ "") :
    ∀ (table : List (String × Pricing)) (b : Nat) (r : Option Pricing),
      (table.foldl
        (fun best kv =>
          if model ≠ "" ∧ pyStartsWith model kv.1 ∧ best.1 < kv.1.length
          then (kv.1.length, some kv.2)
          else best)
        (b, r)).2
      = match table.find? (fun kv => decide (bestP model table b kv)) with
        | some kv => some kv.2
        | none => r := by
  intro table
  induction table with
  | nil => intro b r; rfl
  | cons kv rest ih =>
      intro b r
      rw [List.foldl_cons]
      by_cases hc : pyStartsWith model kv.1 = true ∧ b < kv.1.length
      · rw [if_pos ⟨hm, hc.1, hc.2⟩, ih kv.1.length (some kv.2)]
        by_cases hkv : ∀ u ∈ rest, pyStartsWith model u.1 = true →
            u.1.length ≤ kv.1.length
        · have hP : decide (bestP model (kv :: rest) b kv) = true := by
            rw [decide_eq_true_eq]
            refine ⟨hc.1, hc.2, ?_⟩
            intro u hu h1 _h2
            rcases List.mem_cons.mp hu with rfl | hu
            · exact le_refl _
            · exact hkv u hu h1
          have hfind : List.find?
              (fun u => decide (bestP model (kv :: rest) b u)) (kv :: rest)
              = some kv :=
            List.find?_cons_of_pos rest hP
          rw [hfind]
          have hQ : rest.find?
              (fun u => decide (bestP model rest kv.1.length u)) = none := by
            refine List.find?_eq_none.mpr ?_
            intro u hu hQu
            rw [decide_eq_true_eq] at hQu
            exact absurd (hkv u hu hQu.1) (Nat.not_le.mpr hQu.2.1)
          rw [hQ]
        · push_neg at hkv
          obtain ⟨m0, hm0, hpre0, hlt⟩ := hkv
          have hPkv : ¬ bestP model (kv :: rest) b kv := by
            rintro ⟨-, -, hP3⟩
            exact absurd
              (hP3 m0 (List.mem_cons_of_mem _ hm0) hpre0
                (lt_trans hc.2 hlt))
              (Nat.not_le.mpr hlt)
          have hfind : List.find?
              (fun u => decide (bestP model (kv :: rest) b u)) (kv :: rest)
              = List.find? (fun u => decide (bestP model (kv :: rest) b u))
                  rest :=
            List.find?_cons_of_neg rest (by simp [hPkv])
          rw [hfind]
          have hext : List.find?
              (fun u => decide (bestP model (kv :: rest) b u)) rest
              = List.find? (fun u => decide (bestP model rest kv.1.length u))
                  rest := by
            refine (find?_congr_on rest ?_)
            intro w hw
            rw [decide_eq_decide]
            constructor
            · rintro ⟨hw1, _hw2, hw3⟩
              have hwlen : m0.1.length ≤ w.1.length :=
                hw3 m0 (List.mem_cons_of_mem _ hm0) hpre0
                  (lt_trans hc.2 hlt)
              refine ⟨hw1, lt_of_lt_of_le hlt hwlen, ?_⟩
              intro u hu hu1 hu2
              exact hw3 u (List.mem_cons_of_mem _ hu) hu1 (lt_trans hc.2 hu2)
            · rintro ⟨hw1, hw2, hw3⟩
              refine ⟨hw1, lt_trans hc.2 hw2, ?_⟩
              intro u hu hu1 hu2
              rcases List.mem_cons.mp hu with rfl | hu
              · exact le_of_lt hw2
              · by_cases hcase : u.1.length ≤ kv.1.length
                · exact le_trans hcase (le_of_lt hw2)
                · exact hw3 u hu hu1 (Nat.not_le.mp hcase)
          rw [hext]
          have hx : ∃ x ∈ rest, pyStartsWith model x.1 = true
              ∧ kv.1.length < x.1.length := ⟨m0, hm0, hpre0, hlt⟩
          obtain ⟨x, hxmem, hxP, hxmax⟩ :=
            exists_max_of_mem (fun u => u.1.length)
              (fun u => pyStartsWith model u.1 = true
                ∧ kv.1.length < u.1.length) rest hx
          have hxbest : bestP model rest kv.1.length x := by
            refine ⟨hxP.1, hxP.2, ?_⟩
            intro u hu hu1 hu2
            exact hxmax u hu ⟨hu1, hu2⟩
          cases hfq : rest.find?
              (fun u => decide (bestP model rest kv.1.length u)) with
          | none =>
              exact absurd (by simpa using List.find?_eq_none.mp hfq x hxmem)
                (by simp [hxbest])
          | some u => rfl
      · have hneg : ¬ (model ≠ "" ∧ pyStartsWith model kv.1 = true
            ∧ b < kv.1.length) := fun h => hc ⟨h.2.1, h.2.2⟩
        rw [if_neg hneg, ih b r]
        have hPkv : ¬ bestP model (kv :: rest) b kv := fun hP =>
          hc ⟨hP.1, hP.2.1⟩
        have hfind : List.find?
            (fun u => decide (bestP model (kv :: rest) b u)) (kv :: rest)
            = List.find? (fun u => decide (bestP model (kv :: rest) b u))
                rest :=
          List.find?_cons_of_neg rest (by simp [hPkv])
        rw [hfind]
        have hext : List.find?
            (fun u => decide (bestP model (kv :: rest) b u)) rest
            = List.find? (fun u => decide (bestP model rest b u)) rest := by
          refine (find?_congr_on rest ?_)
          intro w hw
          rw [decide_eq_decide]
          constructor
          · rintro ⟨hw1, hw2, hw3⟩
            exact ⟨hw1, hw2, fun u hu hu1 hu2 =>
              hw3 u (List.mem_cons_of_mem _ hu) hu1 hu2⟩
          · rintro ⟨hw1, hw2, hw3⟩
            refine ⟨hw1, hw2, ?_⟩
            intro u hu hu1 hu2
            rcases List.mem_cons.mp hu with rfl | hu
            · exact absurd ⟨hu1, hu2⟩ hc
            · exact hw3 u hu hu1 hu2
        rw [hext]

theorem string_length_pos {s : String} (h : s ≠ "") : 0 < s.length := by
  cases s with
  | mk d =>
      cases d with
      | nil => exact absurd rfl h
      | cons a t => simp [string_length_data]

theorem string_eq_empty_of_length {s : String} (h : s.length = 0) :
    s = "" := by
  cases s with
  | mk d =>
      rw [string_length_data] at h
      rw [List.length_eq_zero] at h
      exact congrArg String.mk h

/-- The fold of `bestPrefixMatch` finds the value of the first prefix
match of
maximal (positive) length. -/
theorem bestPrefixMatch_char (table : List (String × Pricing))
    (model : String) (hm : model ≠ "") :
    bestPrefixMatch table model
      = (table.find? (fun kv => decide (bestP model table 0 kv))).map
          (fun kv => kv.2) := by
  unfold bestPrefixMatch
  rw [foldBest_char model hm table 0 none]
  cases table.find? (fun kv => decide (bestP model table 0 kv)) with
  | none => rfl
  | some kv => rfl

/-- For every pricing table whose keys are nonempty strings, the pricing
resolution of `_estimate_cost` (exact dict lookup, then the
strictly-improving prefix scan) coincides with the description in the
spec:
the entry whose key is the longest prefix match of the model identifier,
ties broken by the first match. -/
theorem lookupPricing_eq_spec (table : List (String × Pricing))
    (model : String) (hkeys : ∀ kv ∈ table, kv.1 ≠ "") :
    lookupPricing table model = longestPrefixSpec table model := by
  by_cases hm : model = ""
  · subst hm
    have hd : dictGet table "" = none := by
      unfold dictGet
      rw [List.find?_eq_none.mpr ?_]
      · rfl
      · intro kv hkv
        simp only [decide_eq_true_eq]
        exact hkeys kv hkv
    have hs : table.find? (fun kv => decide (pyStartsWith "" kv.1 = true
        ∧ ∀ u ∈ table, pyStartsWith "" u.1 = true →
            u.1.length ≤ kv.1.length)) = none := by
      refine List.find?_eq_none.mpr ?_
      intro kv hkv hP
      rw [decide_eq_true_eq] at hP
      have hlen : kv.1.length ≤ ("" : String).length :=
        pyStartsWith_length hP.1
      have : kv.1 = "" := string_eq_empty_of_length (Nat.le_zero.mp hlen)
      exact hkeys kv hkv this
    unfold lookupPricing longestPrefixSpec
    rw [hd, hs]
    unfold bestPrefixMatch
    have hfold : ∀ (l : List (String × Pricing))
        (init : Nat × Option Pricing),
        (l.foldl (fun best kv =>
          if ("" : String) ≠ "" ∧ pyStartsWith "" kv.1 = true
              ∧ best.1 < kv.1.length
          then (kv.1.length, some kv.2) else best) init) = init := by
      intro l
      induction l with
      | nil => intro init; rfl
      | cons kv rest ih =>
          intro init
          rw [List.foldl_cons, if_neg (fun h => h.1 rfl)]
          exact ih init
    rw [hfold]
    rfl
  · cases hfind : table.find? (fun kv => decide (kv.1 = model)) with
    | some kv0 =>
        have hkv0 : kv0.1 = model := by
          have := List.find?_some hfind
          rwa [decide_eq_true_eq] at this
        have hmem : kv0 ∈ table := List.mem_of_find?_eq_some hfind
        have hspec : table.find? (fun kv =>
            decide (pyStartsWith model kv.1 = true
              ∧ ∀ u ∈ table, pyStartsWith model u.1 = true →
                  u.1.length ≤ kv.1.length))
            = table.find? (fun kv => decide (kv.1 = model)) := by
          refine find?_congr_on table ?_
          intro w hw
          rw [decide_eq_decide]
          constructor
          · rintro ⟨hw1, hw3⟩
            have hle : model.length ≤ w.1.length := by
              have h := hw3 kv0 hmem (pyStartsWith_of_eq hkv0)
              rwa [hkv0] at h
            exact pyStartsWith_eq hw1 hle
          · intro hwe
            refine ⟨pyStartsWith_of_eq hwe, ?_⟩
            intro u hu hu1
            rw [hwe]
            exact pyStartsWith_length hu1
        unfold lookupPricing longestPrefixSpec dictGet
        rw [hfind, hspec, hfind]
        rfl
    | none =>
        have hnoexact : ∀ kv ∈ table, ¬ kv.1 = model := by
          intro kv hkv
          have := List.find?_eq_none.mp hfind kv hkv
          rwa [decide_eq_true_eq] at this
        have hspec : table.find? (fun kv => decide (bestP model table 0 kv))
            = table.find? (fun kv =>
              decide (pyStartsWith model kv.1 = true
                ∧ ∀ u ∈ table, pyStartsWith model u.1 = true →
                    u.1.length ≤ kv.1.length)) := by
          refine find?_congr_on table ?_
          intro w hw
          rw [decide_eq_decide]
          constructor
          · rintro ⟨h1, _h2, h3⟩
            exact ⟨h1, fun u hu hu1 =>
              h3 u hu hu1 (string_length_pos (hkeys u hu))⟩
          · rintro ⟨h1, h3⟩
            exact ⟨h1, string_length_pos (hkeys w hw),
              fun u hu hu1 _ => h3 u hu hu1⟩
        unfold lookupPricing longestPrefixSpec dictGet
        rw [hfind]
        show bestPrefixMatch table model = _
        rw [bestPrefixMatch_char table model hm, hspec]

/-- C4.  For every pricing table with nonempty keys and every model
identifier: if no table key is a prefix of the model identifier (which
also rules out an exact key), `_estimate_cost` returns 0; and the
pricing entry the code resolves is exactly the spec-side choice
`longestPrefixSpec` — the entry whose key is the longest matching
prefix, ties broken by first match (an exact key being the longest
possible prefix of itself). -/
theorem pricing_fallback (table : List (String × Pricing)) (model : String)
    (pt ct cht cwt : Int) (hkeys : ∀ kv ∈ table, kv.1 ≠ "") :
    ((∀ kv ∈ table, ¬ pyStartsWith model kv.1 = true) →
        estimate_cost table model pt ct cht cwt = 0)
    ∧ lookupPricing table model = longestPrefixSpec table model := by
  constructor
  · intro hnone
    have hlook : lookupPricing table model = none := by
      rw [lookupPricing_eq_spec table model hkeys]
      unfold longestPrefixSpec
      rw [List.find?_eq_none.mpr ?_]
      · rfl
      · intro kv hkv hP
        rw [decide_eq_true_eq] at hP
        exact hnone kv hkv hP.1
    unfold estimate_cost
    rw [hlook]
  · exact lookupPricing_eq_spec table model hkeys

/-- Witness for `pricing_fallback`, on the static table of the source:
the model `"mystery/model"` matches no key, so its cost estimate is 0;
and for `"openai/gpt-5.2-codex-plus"` (absent as an exact key, with the
two prefixes `"openai/gpt-5.2"` and `"openai/gpt-5.2-codex"` in the
table) the resolution of the code agrees with the longest-prefix
spec. -/
theorem pricing_fallback_witness :
    estimate_cost MODEL_PRICING_STATIC "mystery/model" 100 50 0 0 = 0
    ∧ lookupPricing MODEL_PRICING_STATIC "openai/gpt-5.2-codex-plus"
        = longestPrefixSpec MODEL_PRICING_STATIC
            "openai/gpt-5.2-codex-plus" :=
  ⟨(pricing_fallback MODEL_PRICING_STATIC "mystery/model" 100 50 0 0
      (by decide)).1 (by decide),
   (pricing_fallback MODEL_PRICING_STATIC "openai/gpt-5.2-codex-plus"
      0 0 0 0 (by decide)).2⟩

/-! ## Theorems: cost never negative (C10) -/

/-- Any pricing entry the prefix scan returns is a value of the table. -/
theorem bestPrefixMatch_mem (model : String) :
    ∀ (table : List (String × Pricing)) (b : Nat) (r : Option Pricing)
      (p : Pricing),
      (table.foldl
        (fun best kv =>
          if model ≠ "" ∧ pyStartsWith model kv.1 = true
              ∧ best.1 < kv.1.length
          then (kv.1.length, some kv.2)
          else best)
        (b, r)).2 = some p →
      r = some p ∨ ∃ kv ∈ table, kv.2 = p := by
  intro table
  induction table with
  | nil => intro b r p h; exact Or.inl h
  | cons kv rest ih =>
      intro b r p h
      rw [List.foldl_cons] at h
      by_cases hc : model ≠ "" ∧ pyStartsWith model kv.1 = true
          ∧ b < kv.1.length
      · rw [if_pos hc] at h
        rcases ih kv.1.length (some kv.2) p h with h2 | ⟨u, hu, hup⟩
        · exact Or.inr ⟨kv, by simp, Option.some_injective _ h2⟩
        · exact Or.inr ⟨u, by simp [hu], hup⟩
      · rw [if_neg hc] at h
        rcases ih b r p h with h2 | ⟨u, hu, hup⟩
        · exact Or.inl h2
        · exact Or.inr ⟨u, by simp [hu], hup⟩

/-- Any pricing entry `lookupPricing` resolves is a value of the table. -/
theorem lookupPricing_mem {table : List (String × Pricing)}
    {model : String} {p : Pricing}
    (h : lookupPricing table model = some p) : ∃ kv ∈ table, kv.2 = p := by
  unfold lookupPricing at h
  cases hfind : dictGet table model with
  | some q =>
      rw [hfind] at h
      unfold dictGet at hfind
      cases hf2 : table.find? (fun kv => decide (kv.1 = model)) with
      | none => rw [hf2] at hfind; cases hfind
      | some kv0 =>
          rw [hf2] at hfind
          refine ⟨kv0, List.mem_of_find?_eq_some hf2, ?_⟩
          cases h
          cases hfind
          rfl
  | none =>
      rw [hfind] at h
      rcases bestPrefixMatch_mem model table 0 none p h with h2 | h2
      · cases h2
      · exact h2

theorem round6_nonneg {q : ℚ} (h : 0 ≤ q) : 0 ≤ round6 q := by
  unfold round6
  have h2 : (0:ℤ) ≤ round (q * 1000000) := by
    rw [round_eq]
    refine Int.floor_nonneg.mpr ?_
    have : (0:ℚ) ≤ q * 1000000 := by positivity
    linarith
  exact div_nonneg (by exact_mod_cast h2) (by norm_num)

/-- C10.  For all non-negative token counts and a table of non-negative
prices, `_estimate_cost` never returns a negative cost: the
regular-input component is clamped at `max(0, prompt - cached)`, so even
`cached_tokens > prompt_tokens` cannot drive the estimate below 0. -/
theorem estimate_cost_nonneg (table : List (String × Pricing))
    (model : String) (pt ct cht cwt : Int)
    (hct : 0 ≤ ct) (hcht : 0 ≤ cht)
    (hprices : ∀ kv ∈ table,
      0 ≤ kv.2.input ∧ 0 ≤ kv.2.cached ∧ 0 ≤ kv.2.output) :
    0 ≤ estimate_cost table model pt ct cht cwt := by
  unfold estimate_cost
  cases hlook : lookupPricing table model with
  | none => exact le_refl 0
  | some p =>
      obtain ⟨kv, hkv, hkvp⟩ := lookupPricing_mem hlook
      obtain ⟨hi, hc, ho⟩ := hprices kv hkv
      rw [hkvp] at hi hc ho
      refine round6_nonneg ?_
      have hreg : (0:ℚ) ≤ ((max 0 (pt - cht) : Int) : ℚ) := by
        exact_mod_cast le_max_left 0 (pt - cht)
      have hchtq : (0:ℚ) ≤ ((cht : Int) : ℚ) := by exact_mod_cast hcht
      have hctq : (0:ℚ) ≤ ((ct : Int) : ℚ) := by exact_mod_cast hct
      have hnum : (0:ℚ) ≤ (max 0 (pt - cht) : Int) * p.input
          + (cht : ℚ) * p.cached + (ct : ℚ) * p.output := by
        have t1 := mul_nonneg hreg hi
        have t2 := mul_nonneg hchtq hc
        have t3 := mul_nonneg hctq ho
        linarith
      exact div_nonneg hnum (by norm_num)

/-- Witness for `estimate_cost_nonneg`: on the static table, with
`cached_tokens = 500` exceeding `prompt_tokens = 100`, the estimate for
`"openai/o3"` is still non-negative. -/
theorem estimate_cost_nonneg_witness :
    0 ≤ estimate_cost MODEL_PRICING_STATIC "openai/o3" 100 10 500 0 :=
  estimate_cost_nonneg MODEL_PRICING_STATIC "openai/o3" 100 10 500 0
    (by norm_num) (by norm_num)
    (by intro kv hkv; fin_cases hkv <;>
      exact ⟨by norm_num, by norm_num, by norm_num⟩)

/-! ## Theorems: pricing fetch failure (C5) -/

/-- C5, counterexample to the claim as stated: after the fetch of the
first call fails, `_pricing_fetched` is reset to `False` (the `except` branch
executes `_pricing_fetched = False`), so the flag is *not* left marked
and a subsequent call in the same process re-attempts the fetch. -/
theorem pricing_fetch_flag_counterexample :
    (get_pricing ⟨false, none⟩ FetchOutcome.failure).1.fetched ≠ true := by
  decide

/-- C5, amended.  After a call in which the remote pricing fetch fails,
the call still returns the usable static fallback table (never replaced
by the failed fetch, with `_cached_pricing` reset to a copy of it) — but
the fetched flag is cleared again on failure, so a subsequent call in
the same process re-attempts the fetch; should that re-attempt succeed
with more than five entries, its prices are merged over the static
table. -/
theorem pricing_fetch_failure_amended (st : PricingState)
    (h : st.fetched = false) :
    (get_pricing st FetchOutcome.failure).2 = MODEL_PRICING_STATIC
    ∧ (get_pricing st FetchOutcome.failure).1
        = ⟨false, some MODEL_PRICING_STATIC⟩
    ∧ ∀ live, 5 < live.length →
        (get_pricing (get_pricing st FetchOutcome.failure).1
          (FetchOutcome.success live)).2
          = dictUpdate MODEL_PRICING_STATIC live := by
  refine ⟨?_, ?_, ?_⟩
  · simp [get_pricing, h]
  · simp [get_pricing, h]
  · intro live hlive
    simp [get_pricing, h, hlive]

/-- Witness for `pricing_fetch_failure_amended` at the initial module
state (nothing fetched, no cache). -/
theorem pricing_fetch_failure_amended_witness :
    (get_pricing ⟨false, none⟩ FetchOutcome.failure).2
        = MODEL_PRICING_STATIC
    ∧ (get_pricing ⟨false, none⟩ FetchOutcome.failure).1.fetched = false :=
  ⟨(pricing_fetch_failure_amended ⟨false, none⟩ rfl).1,
   by rw [(pricing_fetch_failure_amended ⟨false, none⟩ rfl).2.1]⟩

/-! ## Theorems: fallback chain advance (C6) -/

/-- C6, counterexample to the claim as stated: with chain
`["m1", "m2", "m3"]` and current model `"zz"` (not in the chain),
`_handle_fallback` lets the `ValueError` of `list.index` escape instead
of selecting the first chain entry `"m1"`. -/
theorem fallback_advance_counterexample :
    handle_fallback ["m1", "m2", "m3"] "zz"
        = FallbackOutcome.raiseValueError
    ∧ handle_fallback ["m1", "m2", "m3"] "zz"
        ≠ FallbackOutcome.retryWith "m1" := by
  decide

/-- C6, amended.  Advancing the fallback chain selects the entry
immediately after the first occurrence of the current model; if the
current model is at the end of the chain, the original underlying error
is
re-raised (not a generic one); but if the current model is not found in
the chain — in particular whenever the chain is empty — the `ValueError`
raised by `list.index` escapes instead of the first chain entry being
selected. -/
theorem fallback_advance_amended (chain : List String) (current : String) :
    (current ∉ chain →
        handle_fallback chain current = FallbackOutcome.raiseValueError)
    ∧ ∀ (i : Nat) (hi : i < chain.length), chain[i] = current →
        (∀ j : Fin chain.length, j.1 < i → chain.get j ≠ current) →
        ((∀ h : i + 1 < chain.length,
            handle_fallback chain current
              = FallbackOutcome.retryWith chain[i + 1])
         ∧ (¬ i + 1 < chain.length →
            handle_fallback chain current = FallbackOutcome.raiseOriginal)) := by
  constructor
  · intro hmem
    have hfind : chain.findIdx? (fun m => decide (m = current)) = none := by
      refine List.findIdx?_eq_none_iff.mpr ?_
      intro x hx
      simp only [decide_eq_false_iff_not]
      intro hxe
      exact hmem (hxe ▸ hx)
    unfold handle_fallback
    rw [hfind]
  · intro i hi hcur hfirst
    have hfind : chain.findIdx? (fun m => decide (m = current)) = some i := by
      refine List.findIdx?_eq_some_iff_getElem.mpr ⟨hi, ?_, ?_⟩
      · simp [hcur]
      · intro j hj
        simp only [Bool.not_eq_true, decide_eq_false_iff_not]
        have := hfirst ⟨j, Nat.lt_trans hj hi⟩ hj
        simpa [List.get_eq_getElem] using this
    constructor
    · intro h
      simp [handle_fallback, hfind, h]
    · intro h
      simp [handle_fallback, hfind, h]

/-- Witness for `fallback_advance_amended` on the end-to-end
chain `["m1", "m2", "m3"]`: an unknown current model raises the lookup
error, `"m2"` advances to `"m3"`, and `"m3"` re-raises the original
error. -/
theorem fallback_advance_amended_witness :
    handle_fallback ["m1", "m2", "m3"] "zz"
        = FallbackOutcome.raiseValueError
    ∧ handle_fallback ["m1", "m2", "m3"] "m2"
        = FallbackOutcome.retryWith "m3"
    ∧ handle_fallback ["m1", "m2", "m3"] "m3"
        = FallbackOutcome.raiseOriginal :=
  ⟨(fallback_advance_amended ["m1", "m2", "m3"] "zz").1 (by decide),
   ((fallback_advance_amended ["m1", "m2", "m3"] "m2").2 1 (by decide)
      (by decide) (by decide)).1 (by decide),
   ((fallback_advance_amended ["m1", "m2", "m3"] "m3").2 2 (by decide)
      (by decide) (by decide)).2 (by decide)⟩

/-! ## Theorems: tool dispatch ordering (C7) -/

/-- Slot `i` of the completion-order fold holds the result of call `i`
as soon as `i` occurs in the completion order, and is untouched
otherwise — no matter where in the order `i` completed. -/
theorem collect_fold_get (exec1 : ToolCall → ToolResult)
    (tool_calls : List ToolCall) :
    ∀ (order : List Nat) (acc : List (Option ToolResult)),
      acc.length = tool_calls.length →
      ∀ (i : Nat) (hi : i < tool_calls.length),
        (order.foldl
          (fun results idx =>
            match tool_calls[idx]? with
            | some tc => results.set idx (some (exec1 tc))
            | none => results)
          acc)[i]? =
          if i ∈ order then some (some (exec1 tool_calls[i]))
          else acc[i]? := by
  intro order
  induction order with
  | nil =>
      intro acc hlen i hi
      simp
  | cons idx rest ih =>
      intro acc hlen i hi
      rw [List.foldl_cons]
      by_cases hmem : i ∈ rest
      · have hlen2 : (match tool_calls[idx]? with
            | some tc => acc.set idx (some (exec1 tc))
            | none => acc).length = tool_calls.length := by
          cases h : tool_calls[idx]? <;> simp [hlen]
        rw [ih _ hlen2 i hi, if_pos hmem, if_pos (by simp [hmem])]
      · have hstep : ∀ (acc2 : List (Option ToolResult)),
            acc2.length = tool_calls.length →
            (rest.foldl
              (fun results idx =>
                match tool_calls[idx]? with
                | some tc => results.set idx (some (exec1 tc))
                | none => results) acc2)[i]? = acc2[i]? := by
          intro acc2 hlen2
          rw [ih acc2 hlen2 i hi, if_neg hmem]
        by_cases heq : i = idx
        · subst heq
          have hidx : tool_calls[i]? = some tool_calls[i] :=
            List.getElem?_eq_getElem hi
          rw [if_pos (by simp)]
          simp only [hidx]
          rw [hstep _ (by simp [hlen])]
          exact List.getElem?_set_self (by omega)
        · rw [if_neg (by simp [hmem, heq])]
          cases h : tool_calls[idx]? with
          | none =>
              simp only [h]
              rw [hstep acc hlen]
          | some tc =>
              simp only [h]
              rw [hstep _ (by simp [hlen])]
              exact List.getElem?_set_ne (fun hh => heq hh.symm)

/-- C7.  For every batch of tool calls and every completion order (any
permutation of the batch indices), the results list built by
`_handle_tool_calls` keeps the input order: slot `i` holds the result of
the `i`-th requested call, which carries the `tool_call_id` of that
call — independent of which call completed first, and in both the
sequential and the parallel branch. -/
theorem tool_results_ordered (exec1 : ToolCall → ToolResult)
    (tool_calls : List ToolCall) (completionOrder : List Nat)
    (hexec : ∀ tc, (exec1 tc).tool_call_id = tc.id)
    (hperm : completionOrder.Perm (List.range tool_calls.length))
    (i : Nat) (hi : i < tool_calls.length) :
    (handle_tool_calls exec1 tool_calls completionOrder)[i]?
      = some (some (exec1 tool_calls[i]))
    ∧ (exec1 tool_calls[i]).tool_call_id = tool_calls[i].id := by
  refine ⟨?_, hexec _⟩
  unfold handle_tool_calls
  by_cases hpar : 1 < tool_calls.length
      ∧ ∀ tc ∈ tool_calls, tc.name ∈ READ_ONLY_PARALLEL_TOOLS
  · rw [if_pos hpar]
    unfold collectByCompletion
    have hmem : i ∈ completionOrder :=
      hperm.mem_iff.mpr (List.mem_range.mpr hi)
    rw [collect_fold_get exec1 tool_calls completionOrder
      (List.replicate tool_calls.length none) (by simp) i hi]
    rw [if_pos hmem]
  · rw [if_neg hpar]
    rw [List.getElem?_map, List.getElem?_eq_getElem hi]
    rfl

/-- Witness for `tool_results_ordered`: three parallel-eligible calls
collected in the completion order `[2, 0, 1]` still put the result of
call `"c2"` in slot 1. -/
theorem tool_results_ordered_witness :
    (handle_tool_calls
        (fun tc => ⟨tc.id, tc.name, "ok", false⟩)
        [⟨"c1", "repo_read"⟩, ⟨"c2", "web_search"⟩, ⟨"c3", "drive_read"⟩]
        [2, 0, 1])[1]?
      = some (some ⟨"c2", "web_search", "ok", false⟩)
    ∧ ("c2" : String) = "c2" :=
  tool_results_ordered (fun tc => ⟨tc.id, tc.name, "ok", false⟩)
    [⟨"c1", "repo_read"⟩, ⟨"c2", "web_search"⟩, ⟨"c3", "drive_read"⟩]
    [2, 0, 1] (fun tc => rfl) (by decide) 1 (by decide)

/-! ## Theorems: budget forcing (C8) -/

/-- C8.  Whenever the accumulated task cost exceeds 50% of a positive
remaining budget, the budget check appends exactly the forcing system
message demanding a final answer and returns a terminating result
(`some` final text) for *every* possible outcome of the one last model
call — the text of the call when it returns a message with nonempty
content,
and the generic budget-exhausted message when it raises or returns
nothing — never handing control back for another tool round. -/
theorem budget_force_terminates (fmt3 fmt2 : ℚ → String) (b cost : ℚ)
    (round_idx : Nat) (messages : List ConvMsg)
    (finalCall : FinalCallOutcome) (hpos : 0 < b) (hb : b / 2 < cost) :
    (check_budget_limits fmt3 fmt2 (some b) cost round_idx messages
        finalCall).1
      = messages ++ [⟨"system", "[BUDGET LIMIT] "
          ++ ("Task spent $" ++ fmt3 cost ++ " (>50% of remaining $"
              ++ fmt2 b ++ "). Budget exhausted.")
          ++ " Give your final response now."⟩]
    ∧ (check_budget_limits fmt3 fmt2 (some b) cost round_idx messages
        finalCall).2.isSome = true
    ∧ (∀ c, finalCall = FinalCallOutcome.returned ⟨some c⟩ → c ≠ "" →
        (check_budget_limits fmt3 fmt2 (some b) cost round_idx messages
          finalCall).2 = some c)
    ∧ ((finalCall = FinalCallOutcome.raised
        ∨ finalCall = FinalCallOutcome.returnedNone) →
        (check_budget_limits fmt3 fmt2 (some b) cost round_idx messages
          finalCall).2
          = some ("Task spent $" ++ fmt3 cost ++ " (>50% of remaining $"
              ++ fmt2 b ++ "). Budget exhausted.")) := by
  have hpct : (1 : ℚ)/2 < (if 0 < b then cost / b else 1) := by
    rw [if_pos hpos, lt_div_iff₀ hpos]
    linarith
  simp only [check_budget_limits]
  rw [if_pos hpct]
  cases finalCall with
  | raised =>
      refine ⟨by simp, by simp, ?_, by simp⟩
      intro c hc
      cases hc
  | returnedNone =>
      refine ⟨by simp, by simp, ?_, by simp⟩
      intro c hc
      cases hc
  | returned m =>
      refine ⟨by simp, by simp, ?_, by rintro (h | h) <;> cases h⟩
      rintro c hc hne
      cases hc
      simp [contentOr, hne]

/-- Witness for `budget_force_terminates`: spend 1.1 against a remaining
budget of 2 (55%), with the last call returning `"done"` — the loop
terminates with that text. -/
theorem budget_force_terminates_witness :
    (check_budget_limits (fun _ => "1.100") (fun _ => "2.00") (some 2)
        (11/10) 3 [] (FinalCallOutcome.returned ⟨some "done"⟩)).2
      = some "done" :=
  (budget_force_terminates (fun _ => "1.100") (fun _ => "2.00") 2 (11/10)
    3 [] (FinalCallOutcome.returned ⟨some "done"⟩) (by norm_num)
    (by norm_num)).2.2.1 "done" rfl (by decide)

/-! ## Theorems: malformed tool arguments (C9) -/

/-- A string keeps its prefixes when extended on the right. -/
theorem pyStartsWith_append_left {s p : String}
    (h : pyStartsWith s p = true) (t : String) :
    pyStartsWith (s ++ t) p = true := by
  have h2 : p.data <+: s.data := List.isPrefixOf_iff_prefix.mp h
  refine List.isPrefixOf_iff_prefix.mpr ?_
  rw [String.data_append]
  exact h2.trans (List.prefix_append s.data t.data)

/-- C9.  For every tool call whose raw argument payload is malformed —
the JSON parse raised, or it produced a value that is not an object —
`_execute_single_tool` (with the registry modelled from the
handler contract of the spec) returns a structured warning result
marked
`is_error`, whose text starts with the visible `⚠️` marker; being a
total function of the embedding, it raises nothing. -/
theorem malformed_args_warning
    (handler : List (String × String) → ExecOutcome) (tc : ToolCall)
    (parsed : ParsedArgs)
    (hbad : (∃ emsg, parsed = ParsedArgs.malformed emsg)
      ∨ parsed = ParsedArgs.nonObject) :
    (execute_single_tool (registry_execute handler) tc parsed).is_error
        = true
    ∧ pyStartsWith
        (execute_single_tool (registry_execute handler) tc parsed).result
        "⚠️" = true := by
  rcases hbad with ⟨emsg, rfl⟩ | rfl
  · refine ⟨rfl, ?_⟩
    show pyStartsWith
      ("⚠️ TOOL_ARG_ERROR: Could not parse arguments for \x27"
        ++ tc.name ++ "\x27: " ++ emsg) "⚠️" = true
    exact pyStartsWith_append_left
      (pyStartsWith_append_left
        (pyStartsWith_append_left (by decide) _) _) _
  · refine ⟨rfl, ?_⟩
    show pyStartsWith
      ("⚠️ TOOL_ERROR (" ++ tc.name ++ "): " ++ "TypeError" ++ ": "
        ++ "arguments must be a JSON object") "⚠️" = true
    exact pyStartsWith_append_left
      (pyStartsWith_append_left
        (pyStartsWith_append_left
          (pyStartsWith_append_left
            (pyStartsWith_append_left (by decide) _) _) _) _) _

/-- Witness for `malformed_args_warning`: a call whose arguments parsed
to a JSON array (non-object) yields an error-marked `⚠️` result even
for a handler that would have succeeded. -/
theorem malformed_args_warning_witness :
    (execute_single_tool
        (registry_execute (fun _ => ExecOutcome.ok "fine"))
        ⟨"id1", "shell"⟩ ParsedArgs.nonObject).is_error = true
    ∧ pyStartsWith
        (execute_single_tool
          (registry_execute (fun _ => ExecOutcome.ok "fine"))
          ⟨"id1", "shell"⟩ ParsedArgs.nonObject).result "⚠️" = true :=
  malformed_args_warning (fun _ => ExecOutcome.ok "fine")
    ⟨"id1", "shell"⟩ ParsedArgs.nonObject (Or.inr rfl)

end Ouroboros
